import Mathlib

/-!
# Verification of cache replacement policies

A shallow embedding of `src/simulator/infra/replacement/cache_replacement.cpp`:
the exact `LRU` engine (a recency list plus a way-to-node hash), the `PseudoLRU`
engine (a binary tree of direction bits stored in a flat array), and the factory
`create_cache_replacement`, together with theorems settling the specification
claims about them.

Modelling conventions:
* `std::list<std::size_t>` becomes `List Nat`, head = front (most recently
  used), last = back (least recently used).
* The `dense_hash_map` from way index to list iterator is modelled by the list
  of its keys.  A `std::list` iterator survives every `splice`, always
  designating the node that holds the way it was created for, so the value an
  iterator contributes functionally is just that way; only the key set carries
  information.  A failed `assert( lru_it != lru_hash.end())` is modelled as
  `Option.none`.
* `throw CacheReplacementException(msg)` becomes `Except.error msg`.
* Unchecked vector indexing (`nodes[node]`) is modelled with `List.getElem?`;
  an out-of-bounds access yields `none` (undefined behaviour in the C++).
-/

/-! ## LRU engine (`class LRU`) -/

/-- State of the `LRU` engine: the recency list `lru_list` (head = most
recently used, last = least recently used), the fixed way count `ways`, and
the key set of `lru_hash`. -/
structure LRU where
  lru_list : List Nat
  ways : Nat
  lru_hash : List Nat
  deriving Repr, DecidableEq

/-- `LRU::LRU(ways)`: pushes ways `0, …, ways-1` to the front of the list in
turn (so the list reads `[ways-1, …, 1, 0]` and way `0` sits at the back), and
registers every way in the hash. -/
def LRU.new (ways : Nat) : LRU :=
  { lru_list := (List.range ways).reverse
    ways := ways
    lru_hash := List.range ways }

/-- `LRU::touch(way)`: look the way up in the hash (`assert` on failure,
modelled as `none`) and splice its node to the front of the list. -/
def LRU.touch (s : LRU) (way : Nat) : Option LRU :=
  if way ∈ s.lru_hash then
    some { s with lru_list := way :: s.lru_list.erase way }
  else
    none

/-- `LRU::set_to_erase(way)`: look the way up in the hash (`assert` on
failure) and splice its node to the back of the list. -/
def LRU.set_to_erase (s : LRU) (way : Nat) : Option LRU :=
  if way ∈ s.lru_hash then
    some { s with lru_list := s.lru_list.erase way ++ [way] }
  else
    none

/-- `LRU::update()`: read the back element (`lru_list.back()` is undefined on
an empty list, modelled as `none`), pop it, reinsert it at the front, store the
fresh iterator under its key (`lru_hash[lru_elem] = ptr`, which inserts the key
when absent), and return the element. -/
def LRU.update (s : LRU) : Option (Nat × LRU) :=
  match h : s.lru_list.getLast? with
  | none => none
  | some lru_elem =>
      some (lru_elem,
        { s with
          lru_list := lru_elem :: s.lru_list.dropLast
          lru_hash := if lru_elem ∈ s.lru_hash then s.lru_hash
                      else lru_elem :: s.lru_hash })

/-- Run a sequence of `touch` calls, failing if any single one fails. -/
def LRU.touchAll (s : LRU) : List Nat → Option LRU
  | [] => some s
  | t :: ts => (s.touch t).bind (LRU.touchAll · ts)

/-- Run `update` `n` times, collecting the returned ways in call order. -/
def LRU.updates (s : LRU) : Nat → Option (List Nat × LRU)
  | 0 => some ([], s)
  | n + 1 =>
      (s.update).bind fun p =>
        (LRU.updates p.2 n).map fun q => (p.1 :: q.1, q.2)

/-- The states an `LRU` engine can actually be in: freshly constructed, or
reached from a reachable state by a successful `touch`, `set_to_erase` or
`update`. -/
inductive LRU.Reachable : LRU → Prop
  | new (ways : Nat) : LRU.Reachable (LRU.new ways)
  | touch {s s' : LRU} {way : Nat} :
      LRU.Reachable s → s.touch way = some s' → LRU.Reachable s'
  | set_to_erase {s s' : LRU} {way : Nat} :
      LRU.Reachable s → s.set_to_erase way = some s' → LRU.Reachable s'
  | update {s s' : LRU} {way : Nat} :
      LRU.Reachable s → s.update = some (way, s') → LRU.Reachable s'

/-! ## PseudoLRU engine (`class PseudoLRU`) -/

/-- `enum Flags { Left = 0, Right = 1 }`. -/
inductive Flags where
  | Left
  | Right
  deriving Repr, DecidableEq

/-- State of the `PseudoLRU` engine: the flat array of direction bits
(`std::vector<Flags> nodes`, of size `ways - 1`) and the way count. -/
structure PseudoLRU where
  nodes : List Flags
  ways : Nat
  deriving Repr, DecidableEq

/-- Modelled from the spec: `is_power_of_two` is provided by `infra/macro.h`,
which is not among the available sources.  The spec says construction
"requires `ways` to be an exact power of two; any other value fails with a
configuration error", so this decides whether `n` is an exact power of two. -/
def is_power_of_two (n : Nat) : Bool :=
  decide (∃ k ≤ n, n = 2 ^ k)

/-- `PseudoLRU::PseudoLRU(ways)`: builds `nodes` as `ways - 1` copies of
`Left`, then throws a `CacheReplacementException` unless `ways` is a power of
two. -/
def PseudoLRU.new (ways : Nat) : Except String PseudoLRU :=
  if is_power_of_two ways then
    Except.ok { nodes := List.replicate (ways - 1) Flags.Left, ways := ways }
  else
    Except.error "Number of ways must be the power of 2!"

/-- `PseudoLRU::get_next_node(node)`:
`node * 2 + (nodes[node] == Left ? 1 : 2)`; `none` when the unchecked read
`nodes[node]` is out of bounds. -/
def PseudoLRU.get_next_node (nodes : List Flags) (node : Nat) : Option Nat :=
  (nodes[node]?).map fun f => node * 2 + (if f = Flags.Left then 1 else 2)

/-- `PseudoLRU::get_direction_to_prev_node(node)`: `node % 2 != 0 ? Left :
Right`. -/
def PseudoLRU.get_direction_to_prev_node (node : Nat) : Flags :=
  if node % 2 ≠ 0 then Flags.Left else Flags.Right

/-- `PseudoLRU::reverse_node(node)`: flip the bit stored at `node`. -/
def PseudoLRU.reverse_node (nodes : List Flags) (node : Nat) : List Flags :=
  match nodes[node]? with
  | none => nodes
  | some f => nodes.set node (if f = Flags.Left then Flags.Right else Flags.Left)

/-- The loop body of `PseudoLRU::touch`: walk from `node` up to the root,
flipping every parent whose bit agrees with the direction towards the child
just climbed from.  `none` when a parent read is out of bounds. -/
def PseudoLRU.touchLoop (nodes : List Flags) (node : Nat) : Option (List Flags) :=
  if node = 0 then some nodes
  else
    let parent := (node - 1) / 2
    match nodes[parent]? with
    | none => none
    | some p =>
        PseudoLRU.touchLoop
          (if PseudoLRU.get_direction_to_prev_node node = p then
            PseudoLRU.reverse_node nodes parent
          else nodes)
          parent
  termination_by node
  decreasing_by
    omega

/-- `PseudoLRU::touch(way)`: start the upward walk at the way's leaf index
`way + nodes.size()`. -/
def PseudoLRU.touch (s : PseudoLRU) (way : Nat) : Option PseudoLRU :=
  (PseudoLRU.touchLoop s.nodes (way + s.nodes.length)).map
    fun nodes' => { s with nodes := nodes' }

/-- The loop of `PseudoLRU::update`: from `node`, follow `get_next_node` while
`node < nodes.size()`.  `none` when a read is out of bounds (never happens
while the guard holds). -/
def PseudoLRU.updateLoop (nodes : List Flags) (node : Nat) : Option Nat :=
  if h : node < nodes.length then
    match h2 : PseudoLRU.get_next_node nodes node with
    | none => none
    | some node' => PseudoLRU.updateLoop nodes node'
  else some node
  termination_by nodes.length - node
  decreasing_by
    simp only [PseudoLRU.get_next_node, Option.map_eq_some'] at h2
    obtain ⟨f, -, hf⟩ := h2
    split at hf <;> omega

/-- `PseudoLRU::update()`: walk from the root to a leaf, convert the leaf
index to a way (`node - nodes.size()`), `touch` that way and return it. -/
def PseudoLRU.update (s : PseudoLRU) : Option (Nat × PseudoLRU) := do
  let node ← PseudoLRU.updateLoop s.nodes 0
  let way := node - s.nodes.length
  let s' ← s.touch way
  pure (way, s')

/-- `PseudoLRU::set_to_erase`: unconditionally throws. -/
def PseudoLRU.set_to_erase (_s : PseudoLRU) (_way : Nat) : Except String PseudoLRU :=
  Except.error "PLRU does not support inverted access"

/-- The states a `PseudoLRU` engine can actually be in. -/
inductive PseudoLRU.Reachable : PseudoLRU → Prop
  | new {ways : Nat} {s : PseudoLRU} :
      PseudoLRU.new ways = Except.ok s → PseudoLRU.Reachable s
  | touch {s s' : PseudoLRU} {way : Nat} :
      PseudoLRU.Reachable s → s.touch way = some s' → PseudoLRU.Reachable s'
  | update {s s' : PseudoLRU} {way : Nat} :
      PseudoLRU.Reachable s → s.update = some (way, s') → PseudoLRU.Reachable s'

/-! ### Fuel-indexed variants of the two `PseudoLRU` loops

`touchLoop` and `updateLoop` are defined by well-founded recursion, which the
kernel cannot reduce on concrete inputs.  The following structurally recursive
variants take an explicit fuel argument and are proved equal to the originals
whenever the fuel is large enough; concrete executions then go through them. -/

/-- Fuel-indexed version of `PseudoLRU.touchLoop`. -/
def PseudoLRU.touchLoopF (fuel : Nat) (nodes : List Flags) (node : Nat) :
    Option (List Flags) :=
  match fuel with
  | 0 => if node = 0 then some nodes else none
  | fuel + 1 =>
      if node = 0 then some nodes
      else
        let parent := (node - 1) / 2
        match nodes[parent]? with
        | none => none
        | some p =>
            PseudoLRU.touchLoopF fuel
              (if PseudoLRU.get_direction_to_prev_node node = p then
                PseudoLRU.reverse_node nodes parent
              else nodes)
              parent

/-- Fuel-indexed version of `PseudoLRU.updateLoop`. -/
def PseudoLRU.updateLoopF (nodes : List Flags) (fuel : Nat) (node : Nat) :
    Option Nat :=
  match fuel with
  | 0 => if node < nodes.length then none else some node
  | fuel + 1 =>
      if node < nodes.length then
        match PseudoLRU.get_next_node nodes node with
        | none => none
        | some node' => PseudoLRU.updateLoopF nodes fuel node'
      else some node

/-! ## Factory (`create_cache_replacement`) -/

/-- A constructed engine, as returned by the factory. -/
inductive CacheReplacement where
  | lru : LRU → CacheReplacement
  | plru : PseudoLRU → CacheReplacement
  deriving Repr, DecidableEq

/-- `create_cache_replacement(name, ways)`: `"LRU"` builds an `LRU` engine,
`"Pseudo-LRU"` builds a `PseudoLRU` engine (whose constructor may throw), and
any other name throws a `CacheReplacementException` whose message lists
`LRU` and `pseudo-LRU`. -/
def create_cache_replacement (name : String) (ways : Nat) :
    Except String CacheReplacement :=
  if name = "LRU" then
    Except.ok (CacheReplacement.lru (LRU.new ways))
  else if name = "Pseudo-LRU" then
    (PseudoLRU.new ways).map CacheReplacement.plru
  else
    Except.error
      ("\"" ++ name ++
        "\" replacement policy is not defined, supported polices are:\nLRU\npseudo-LRU\n")

/-! ## Basic lemmas about the PseudoLRU loops -/

/-- `touchLoop` agrees with its fuel-indexed variant once the fuel covers the
start node (each iteration moves to `(node - 1) / 2 < node`). -/
theorem PseudoLRU.touchLoop_eq_fuel (fuel : Nat) :
    ∀ (nodes : List Flags) (node : Nat), node ≤ fuel →
      PseudoLRU.touchLoop nodes node = PseudoLRU.touchLoopF fuel nodes node := by
  induction fuel with
  | zero =>
      intro nodes node h
      have h0 : node = 0 := Nat.le_zero.mp h
      subst h0
      rw [PseudoLRU.touchLoop, PseudoLRU.touchLoopF]
      simp
  | succ fuel ih =>
      intro nodes node h
      rw [PseudoLRU.touchLoop, PseudoLRU.touchLoopF]
      by_cases h0 : node = 0
      · simp [h0]
      · simp only [h0, if_false]
        cases hp : nodes[(node - 1) / 2]? with
        | none => rfl
        | some p =>
            exact ih _ _ (by omega)

/-- `updateLoop` agrees with its fuel-indexed variant once the fuel covers the
distance to the end of the array (each iteration strictly increases `node`). -/
theorem PseudoLRU.updateLoop_eq_fuel (fuel : Nat) :
    ∀ (nodes : List Flags) (node : Nat), nodes.length ≤ node + fuel →
      PseudoLRU.updateLoop nodes node = PseudoLRU.updateLoopF nodes fuel node := by
  induction fuel with
  | zero =>
      intro nodes node h
      have hnlt : ¬ node < nodes.length := by omega
      rw [PseudoLRU.updateLoop, PseudoLRU.updateLoopF]
      simp [hnlt]
  | succ fuel ih =>
      intro nodes node h
      rw [PseudoLRU.updateLoop, PseudoLRU.updateLoopF]
      by_cases hlt : node < nodes.length
      · simp only [hlt, dif_pos, if_pos]
        cases hg : PseudoLRU.get_next_node nodes node with
        | none => rfl
        | some node' =>
            have hlt' : node < node' := by
              simp only [PseudoLRU.get_next_node, Option.map_eq_some'] at hg
              obtain ⟨f, -, hf⟩ := hg
              split at hf <;> omega
            exact ih _ _ (by omega)
      · simp [hlt]

/-- `PseudoLRU.touch` through the fuel-indexed loop. -/
theorem PseudoLRU.touch_eq_fuel (s : PseudoLRU) (way : Nat) :
    s.touch way =
      (PseudoLRU.touchLoopF (way + s.nodes.length) s.nodes
          (way + s.nodes.length)).map
        (fun nodes' => { s with nodes := nodes' }) := by
  unfold PseudoLRU.touch
  rw [PseudoLRU.touchLoop_eq_fuel (way + s.nodes.length) s.nodes _ le_rfl]

/-- `PseudoLRU.update` through the fuel-indexed loops. -/
theorem PseudoLRU.update_eq_fuel (s : PseudoLRU) :
    s.update =
      (PseudoLRU.updateLoopF s.nodes s.nodes.length 0).bind (fun node =>
        ((PseudoLRU.touchLoopF ((node - s.nodes.length) + s.nodes.length)
              s.nodes ((node - s.nodes.length) + s.nodes.length)).map
            (fun nodes' => { s with nodes := nodes' })).bind (fun s' =>
          some (node - s.nodes.length, s'))) := by
  unfold PseudoLRU.update
  rw [PseudoLRU.updateLoop_eq_fuel s.nodes.length s.nodes 0 (by omega)]
  congr 1
  funext node
  dsimp only
  rw [PseudoLRU.touch_eq_fuel s (node - s.nodes.length)]
  rfl

/-- `is_power_of_two` decides exactly "is an exact power of two" (the bound
`k ≤ n` in its definition is harmless because `k < 2 ^ k`). -/
theorem is_power_of_two_iff (n : Nat) :
    is_power_of_two n = true ↔ ∃ k, n = 2 ^ k := by
  have base : is_power_of_two n = true ↔ ∃ k ≤ n, n = 2 ^ k := by
    simp [is_power_of_two]
  constructor
  · intro h
    obtain ⟨k, -, hk⟩ := base.mp h
    exact ⟨k, hk⟩
  · rintro ⟨k, rfl⟩
    exact base.mpr ⟨k, Nat.le_of_lt (Nat.lt_two_pow k), rfl⟩

/-! ## Claim theorems -/

/-- C2: constructing the `PseudoLRU` engine with a way count that is not an
exact power of two fails with the configuration error
`CacheReplacementException("Number of ways must be the power of 2!")` and
yields no state; in particular `ways = 3` fails, while `ways = 4` (a power of
two) succeeds. -/
theorem C2_plru_construction_requires_power_of_two (ways : Nat) :
    (is_power_of_two ways = true ↔ ∃ k, ways = 2 ^ k) ∧
    (is_power_of_two ways = false →
      PseudoLRU.new ways = Except.error "Number of ways must be the power of 2!") ∧
    PseudoLRU.new 3 = Except.error "Number of ways must be the power of 2!" ∧
    PseudoLRU.new 4 = Except.ok ⟨List.replicate 3 Flags.Left, 4⟩ := by
  refine ⟨is_power_of_two_iff ways, fun h => ?_, rfl, rfl⟩
  simp [PseudoLRU.new, h]

/-- Witness for C2 at the concrete non-power-of-two `ways = 6`. -/
theorem C2_plru_construction_requires_power_of_two_witness :
    PseudoLRU.new 6 = Except.error "Number of ways must be the power of 2!" :=
  (C2_plru_construction_requires_power_of_two 6).2.1 (by decide)

/-- C3: on the `PseudoLRU` engine built with `ways = 4` (all bits `Left`), the
first `update()` returns way `0`; after `touch(0)` on the fresh engine the
next `update()` returns way `2 ≠ 0`, and the one after that returns way
`1 ≠ 0` — `0` is not returned again before other ways have been the target of
`update()`'s implicit touch. -/
theorem C3_plru_ways4_first_victims :
    PseudoLRU.new 4 = Except.ok ⟨List.replicate 3 Flags.Left, 4⟩ ∧
    PseudoLRU.update ⟨List.replicate 3 Flags.Left, 4⟩ =
      some (0, ⟨[Flags.Right, Flags.Right, Flags.Left], 4⟩) ∧
    PseudoLRU.touch ⟨List.replicate 3 Flags.Left, 4⟩ 0 =
      some ⟨[Flags.Right, Flags.Right, Flags.Left], 4⟩ ∧
    PseudoLRU.update ⟨[Flags.Right, Flags.Right, Flags.Left], 4⟩ =
      some (2, ⟨[Flags.Left, Flags.Right, Flags.Right], 4⟩) ∧
    PseudoLRU.update ⟨[Flags.Left, Flags.Right, Flags.Right], 4⟩ =
      some (1, ⟨[Flags.Right, Flags.Left, Flags.Right], 4⟩) ∧
    (2 : Nat) ≠ 0 ∧ (1 : Nat) ≠ 0 := by
  refine ⟨rfl, ?_, ?_, ?_, ?_, by decide, by decide⟩ <;>
    first
      | (rw [PseudoLRU.update_eq_fuel]; decide)
      | (rw [PseudoLRU.touch_eq_fuel]; decide)

/-- C6: `PseudoLRU::set_to_erase` fails with the unsupported-operation error
`CacheReplacementException("PLRU does not support inverted access")` for every
state and every argument (including out-of-range ways), producing no successor
state — the bit tree is left untouched. -/
theorem C6_plru_set_to_erase_always_fails (s : PseudoLRU) (way : Nat) :
    PseudoLRU.set_to_erase s way =
      Except.error "PLRU does not support inverted access" :=
  rfl

/-- C7: the factory maps `"LRU"` to an LRU engine and `"Pseudo-LRU"` to a
PseudoLRU engine (case-sensitively) and fails for any other string such as
`"FIFO"` — but the claim's last part fails on the code: the configuration
error's message enumerates `LRU` and `pseudo-LRU` as the supported policy
names, and the name `pseudo-LRU` that the message itself advertises is
rejected by the factory (only `Pseudo-LRU` is accepted).  The fourth conjunct
splits the message to exhibit the advertised `pseudo-LRU` line. -/
theorem C7_factory_message_advertises_rejected_name :
    create_cache_replacement "LRU" 4 =
      Except.ok (CacheReplacement.lru (LRU.new 4)) ∧
    create_cache_replacement "Pseudo-LRU" 4 =
      Except.ok (CacheReplacement.plru ⟨List.replicate 3 Flags.Left, 4⟩) ∧
    create_cache_replacement "FIFO" 4 =
      Except.error
        "\"FIFO\" replacement policy is not defined, supported polices are:\nLRU\npseudo-LRU\n" ∧
    "\"FIFO\" replacement policy is not defined, supported polices are:\nLRU\npseudo-LRU\n" =
      "\"FIFO\" replacement policy is not defined, supported polices are:" ++
        "\nLRU\n" ++ "pseudo-LRU" ++ "\n" ∧
    create_cache_replacement "pseudo-LRU" 4 =
      Except.error
        "\"pseudo-LRU\" replacement policy is not defined, supported polices are:\nLRU\npseudo-LRU\n" :=
  ⟨rfl, rfl, rfl, rfl, rfl⟩

/-! ## The LRU reachable-state invariant -/

/-- Invariant of every reachable `LRU` state: the recency list is a
permutation of `range ways` and the hash keys are exactly the ways. -/
theorem LRU.reachable_invariant {s : LRU} (hs : LRU.Reachable s) :
    s.lru_list.Perm (List.range s.ways) ∧ (∀ w, w ∈ s.lru_hash ↔ w < s.ways) := by
  induction hs with
  | new ways =>
      exact ⟨List.reverse_perm (List.range ways), fun w => by simp [LRU.new]⟩
  | @touch s s' way hs h ih =>
      obtain ⟨hperm, hhash⟩ := ih
      unfold LRU.touch at h
      split at h
      case isTrue hmem =>
        injection h with h
        subst h
        have hlist : way ∈ s.lru_list :=
          hperm.mem_iff.mpr (List.mem_range.mpr ((hhash way).mp hmem))
        exact ⟨(List.perm_cons_erase hlist).symm.trans hperm, hhash⟩
      case isFalse => exact absurd h (by simp)
  | @set_to_erase s s' way hs h ih =>
      obtain ⟨hperm, hhash⟩ := ih
      unfold LRU.set_to_erase at h
      split at h
      case isTrue hmem =>
        injection h with h
        subst h
        have hlist : way ∈ s.lru_list :=
          hperm.mem_iff.mpr (List.mem_range.mpr ((hhash way).mp hmem))
        exact ⟨((List.perm_append_singleton way _).trans
          (List.perm_cons_erase hlist).symm).trans hperm, hhash⟩
      case isFalse => exact absurd h (by simp)
  | @update s s' way hs h ih =>
      obtain ⟨hperm, hhash⟩ := ih
      unfold LRU.update at h
      split at h
      next => exact absurd h (by simp)
      next e heq =>
        injection h with h
        injection h with h1 h2
        subst h1
        subst h2
        have hsplit : s.lru_list.dropLast ++ [e] = s.lru_list :=
          List.dropLast_append_getLast? e heq
        have hmem : e ∈ s.lru_list := by
          rw [← hsplit]; simp
        have hway : e < s.ways := List.mem_range.mp (hperm.mem_iff.mp hmem)
        have hkey : e ∈ s.lru_hash := (hhash e).mpr hway
        refine ⟨?_, ?_⟩
        · exact (List.perm_append_singleton e s.lru_list.dropLast).symm.trans
            (by rw [hsplit]; exact hperm)
        · simp only [if_pos hkey]
          exact hhash

/-- C8: in every reachable `LRU` state — after construction and after every
successful `touch`, `set_to_erase` and `update` — the recency list is a
permutation of the way indices `0, …, ways-1` (each way exactly once, no
duplicates), and the hash is mutually consistent with it: its keys are exactly
the ways, and each key's node — a `std::list` iterator always designates the
node holding the way it was registered for — is present in the list. -/
theorem C8_lru_state_invariant (s : LRU) (hs : LRU.Reachable s) :
    s.lru_list.Perm (List.range s.ways) ∧
    s.lru_list.Nodup ∧
    (∀ w, w < s.ways ↔ w ∈ s.lru_list) ∧
    (∀ w, w ∈ s.lru_hash ↔ w < s.ways) := by
  obtain ⟨hperm, hhash⟩ := LRU.reachable_invariant hs
  exact ⟨hperm, hperm.symm.nodup (List.nodup_range s.ways),
    fun w => ⟨fun hw => hperm.mem_iff.mpr (List.mem_range.mpr hw),
      fun hw => List.mem_range.mp (hperm.mem_iff.mp hw)⟩,
    hhash⟩

/-- Witness for C8 at the reachable state obtained from `LRU.new 2` by
`touch 0`. -/
theorem C8_lru_state_invariant_witness :
    (⟨[0, 1], 2, [0, 1]⟩ : LRU).lru_list.Perm (List.range 2) ∧
    (⟨[0, 1], 2, [0, 1]⟩ : LRU).lru_list.Nodup ∧
    (∀ w, w < (⟨[0, 1], 2, [0, 1]⟩ : LRU).ways ↔
      w ∈ (⟨[0, 1], 2, [0, 1]⟩ : LRU).lru_list) ∧
    (∀ w, w ∈ (⟨[0, 1], 2, [0, 1]⟩ : LRU).lru_hash ↔
      w < (⟨[0, 1], 2, [0, 1]⟩ : LRU).ways) :=
  C8_lru_state_invariant ⟨[0, 1], 2, [0, 1]⟩
    (@LRU.Reachable.touch (LRU.new 2) ⟨[0, 1], 2, [0, 1]⟩ 0
      (LRU.Reachable.new 2) (by decide))

/-- `LRU::update` on a state whose list has back element `e`: pop the back,
reinsert it at the front, refresh the hash entry, return it. -/
theorem LRU.update_eq_some {s : LRU} {e : Nat} (h : s.lru_list.getLast? = some e) :
    s.update = some (e,
      { s with
        lru_list := e :: s.lru_list.dropLast
        lru_hash := if e ∈ s.lru_hash then s.lru_hash
                    else e :: s.lru_hash }) := by
  unfold LRU.update
  split
  next h' => rw [h'] at h; exact absurd h (by simp)
  next e' h' => rw [h'] at h; injection h with h; subst h; rfl

/-- C5: on the `LRU` engine, for every way `< ways` and every reachable state
(any prior history of `touch` / `set_to_erase` / `update` calls),
`set_to_erase(way)` followed immediately by `update()` returns exactly
`way`. -/
theorem C5_lru_set_to_erase_forces_victim (s : LRU) (hs : LRU.Reachable s)
    (way : Nat) (hway : way < s.ways) :
    ∃ s' s'', s.set_to_erase way = some s' ∧ s'.update = some (way, s'') := by
  obtain ⟨hperm, hhash⟩ := LRU.reachable_invariant hs
  have hkey : way ∈ s.lru_hash := (hhash way).mpr hway
  have h1 : s.set_to_erase way =
      some { s with lru_list := s.lru_list.erase way ++ [way] } := by
    simp [LRU.set_to_erase, hkey]
  exact ⟨_, _, h1, LRU.update_eq_some (List.getLast?_concat _)⟩

/-- Witness for C5 on a fresh three-way engine, erasing way `1`. -/
theorem C5_lru_set_to_erase_forces_victim_witness :
    ∃ s' s'', (LRU.new 3).set_to_erase 1 = some s' ∧
      s'.update = some (1, s'') :=
  C5_lru_set_to_erase_forces_victim (LRU.new 3) (LRU.Reachable.new 3) 1
    (by decide)

/-- C9: `set_to_erase` is best-effort, not sticky: with at least two ways, in
any reachable state, `set_to_erase(way)` followed by `touch(way)` (no
intervening `update`) and then `update()` yields a victim different from
`way` — the forced-erase intent is lost once the way is touched again. -/
theorem C9_lru_set_to_erase_not_sticky (s : LRU) (hs : LRU.Reachable s)
    (h2 : 2 ≤ s.ways) (way : Nat) (hway : way < s.ways) :
    ∃ s1 s2 v s3, s.set_to_erase way = some s1 ∧ s1.touch way = some s2 ∧
      s2.update = some (v, s3) ∧ v ≠ way := by
  obtain ⟨hperm, hhash⟩ := LRU.reachable_invariant hs
  have hnodup : s.lru_list.Nodup := hperm.symm.nodup (List.nodup_range s.ways)
  have hkey : way ∈ s.lru_hash := (hhash way).mpr hway
  have hne : s.lru_list.erase way ≠ [] := by
    have hlen : s.lru_list.length = s.ways := by
      simpa using hperm.length_eq
    have hmem : way ∈ s.lru_list :=
      hperm.mem_iff.mpr (List.mem_range.mpr hway)
    have := List.length_erase_of_mem hmem
    rw [← List.length_pos]
    omega
  have hnm : way ∉ s.lru_list.erase way := hnodup.not_mem_erase
  have hstep2 : (s.lru_list.erase way ++ [way]).erase way
      = s.lru_list.erase way := by
    rw [List.erase_append_right _ hnm]
    simp
  set v := (s.lru_list.erase way).getLast hne with hv
  have hvm : v ∈ s.lru_list.erase way := List.getLast_mem hne
  have hvlast : (way :: s.lru_list.erase way).getLast? = some v := by
    rw [List.getLast?_eq_getLast_of_ne_nil (by simp), List.getLast_cons hne]
  have h1 : s.set_to_erase way =
      some { s with lru_list := s.lru_list.erase way ++ [way] } := by
    simp [LRU.set_to_erase, hkey]
  have htouch :
      LRU.touch { s with lru_list := s.lru_list.erase way ++ [way] } way =
        some { s with lru_list := way :: s.lru_list.erase way } := by
    simp [LRU.touch, hkey, hstep2]
  have hupd : LRU.update { s with lru_list := way :: s.lru_list.erase way } =
      some (v,
        { s with
          lru_list := v :: (way :: s.lru_list.erase way).dropLast
          lru_hash := if v ∈ s.lru_hash then s.lru_hash
                      else v :: s.lru_hash }) :=
    LRU.update_eq_some hvlast
  exact ⟨_, _, v, _, h1, htouch, hupd, fun hvw => hnm (hvw ▸ hvm)⟩

/-- Witness for C9 on a fresh three-way engine, erasing then touching way
`1`. -/
theorem C9_lru_set_to_erase_not_sticky_witness :
    ∃ s1 s2 v s3, (LRU.new 3).set_to_erase 1 = some s1 ∧
      s1.touch 1 = some s2 ∧ s2.update = some (v, s3) ∧ v ≠ 1 :=
  C9_lru_set_to_erase_not_sticky (LRU.new 3) (LRU.Reachable.new 3)
    (by decide) 1 (by decide)

/-- After `j` updates, a fresh `ways`-way LRU engine has produced the ways
`j, j+1, …` in order and its list is `[j-1, …, 0] ++ [ways-1, …, j]`; proved
for `k` further updates from that shape. -/
theorem LRU.updates_new_aux (ways : Nat) :
    ∀ k j, j + k ≤ ways →
      LRU.updates
        ⟨(List.range j).reverse ++ (List.range' j (ways - j)).reverse, ways,
          List.range ways⟩ k =
      some (List.range' j k,
        ⟨(List.range (j + k)).reverse ++
            (List.range' (j + k) (ways - (j + k))).reverse,
          ways, List.range ways⟩) := by
  intro k
  induction k with
  | zero => intro j hj; simp [LRU.updates]
  | succ k ih =>
      intro j hj
      have hm : ways - j = (ways - (j + 1)) + 1 := by omega
      have hlist : (List.range j).reverse ++ (List.range' j (ways - j)).reverse
          = ((List.range j).reverse ++
              (List.range' (j + 1) (ways - (j + 1))).reverse) ++ [j] := by
        rw [hm, List.range'_succ, List.reverse_cons, List.append_assoc]
      have hupd : LRU.update
          ⟨(List.range j).reverse ++ (List.range' j (ways - j)).reverse, ways,
            List.range ways⟩ =
          some (j,
            ⟨(List.range (j + 1)).reverse ++
                (List.range' (j + 1) (ways - (j + 1))).reverse, ways,
              List.range ways⟩) := by
        have heq := LRU.update_eq_some (s :=
          ⟨(List.range j).reverse ++ (List.range' j (ways - j)).reverse, ways,
            List.range ways⟩) (e := j) (by rw [hlist]; exact List.getLast?_concat _)
        rw [heq]
        have hjmem : j ∈ List.range ways := List.mem_range.mpr (by omega)
        simp only [hjmem, if_true, hlist, List.dropLast_concat]
        rw [List.range_succ, List.reverse_concat, List.cons_append]
      simp only [LRU.updates, hupd, Option.some_bind]
      rw [ih (j + 1) (by omega)]
      simp only [Option.map_some']
      rw [List.range'_succ]
      have hadd : j + 1 + k = j + (k + 1) := by omega
      rw [hadd]

/-- C4: on a freshly constructed `ways`-way LRU engine (`ways > 0`), calling
`update()` `ways` times with no intervening `touch` returns each way exactly
once, in construction order `0, 1, …, ways-1`. -/
theorem C4_lru_fresh_updates_in_construction_order (ways : Nat) (hw : 0 < ways) :
    (LRU.updates (LRU.new ways) ways).map Prod.fst = some (List.range ways) := by
  have h0 : LRU.new ways =
      ⟨(List.range 0).reverse ++ (List.range' 0 (ways - 0)).reverse, ways,
        List.range ways⟩ := by
    simp [LRU.new, List.range_eq_range']
  rw [h0, LRU.updates_new_aux ways ways 0 (by omega)]
  simp [← List.range_eq_range']

/-- Witness for C4 on a fresh three-way engine. -/
theorem C4_lru_fresh_updates_in_construction_order_witness :
    (LRU.updates (LRU.new 3) 3).map Prod.fst = some (List.range 3) :=
  C4_lru_fresh_updates_in_construction_order 3 (by decide)

/-! ## Characterising the LRU list after a sequence of touches -/

/-- `touchAll` peels a trailing touch off the sequence. -/
theorem LRU.touchAll_append (s : LRU) (ts : List Nat) (t : Nat) :
    LRU.touchAll s (ts ++ [t]) = (LRU.touchAll s ts).bind (fun u => u.touch t) := by
  induction ts generalizing s with
  | nil => simp [LRU.touchAll]
  | cons x ts ih =>
      simp only [List.cons_append, LRU.touchAll, Option.bind_assoc]
      cases s.touch x with
      | none => simp
      | some u => simp [ih]

/-- Appending an element to a list moves its deduplication (which keeps last
occurrences) to the end. -/
theorem dedup_append_singleton (ts : List Nat) (t : Nat) :
    (ts ++ [t]).dedup = ts.dedup.erase t ++ [t] := by
  induction ts with
  | nil => simp
  | cons x ts ih =>
      by_cases hx : x = t
      · subst hx
        rw [List.cons_append, List.dedup_cons_of_mem (by simp), ih]
        by_cases hmem : x ∈ ts
        · rw [List.dedup_cons_of_mem hmem]
        · rw [List.dedup_cons_of_not_mem hmem, List.erase_cons_head,
            List.erase_of_not_mem (by simp [List.mem_dedup, hmem])]
      · rw [List.cons_append]
        by_cases hmem : x ∈ ts
        · rw [List.dedup_cons_of_mem hmem,
            List.dedup_cons_of_mem (by simp [hmem]), ih]
        · rw [List.dedup_cons_of_not_mem hmem,
            List.dedup_cons_of_not_mem (by simp [hmem, hx]), ih,
            List.erase_cons_tail, List.cons_append]
          simp [hx]

/-- On duplicate-free lists, `erase` commutes with `reverse`. -/
theorem reverse_erase_of_nodup {l : List Nat} (h : l.Nodup) (t : Nat) :
    (l.erase t).reverse = l.reverse.erase t := by
  rw [List.Nodup.erase_eq_filter h, List.Nodup.erase_eq_filter
    (List.nodup_reverse.mpr h), ← List.filter_reverse]

/-- The head of `dedup` (which keeps last occurrences) is the element whose
last occurrence comes first: the sequence splits as `as ++ v :: bs` with `v`
absent from `bs` and every other element present in `bs`. -/
theorem dedup_head_split :
    ∀ (ts : List Nat) (v : Nat), ts.dedup.head? = some v →
      ∃ as bs, ts = as ++ v :: bs ∧ v ∉ bs ∧
        ∀ w ∈ ts, w ≠ v → w ∈ bs := by
  intro ts
  induction ts with
  | nil => intro v hv; simp at hv
  | cons x ts ih =>
      intro v hv
      by_cases hmem : x ∈ ts
      · rw [List.dedup_cons_of_mem hmem] at hv
        obtain ⟨as, bs, hsplit, hnb, hall⟩ := ih v hv
        refine ⟨x :: as, bs, by rw [List.cons_append, hsplit], hnb, ?_⟩
        intro w hw hwv
        rcases List.mem_cons.mp hw with rfl | hw2
        · exact hall w (hsplit ▸ hmem) hwv
        · exact hall w hw2 hwv
      · rw [List.dedup_cons_of_not_mem hmem] at hv
        simp only [List.head?_cons, Option.some.injEq] at hv
        subst hv
        refine ⟨[], ts, rfl, hmem, ?_⟩
        intro w hw hwv
        rcases List.mem_cons.mp hw with rfl | hw2
        · exact absurd rfl hwv
        · exact hw2

/-- Closed form of the LRU state after a sequence of in-range touches on a
fresh engine: the touched ways in most-recent-first order, followed by the
untouched ways in the original (freshest-first) order; the hash keys never
change. -/
theorem LRU.touchAll_new (ways : Nat) :
    ∀ ts : List Nat, (∀ t ∈ ts, t < ways) →
      LRU.touchAll (LRU.new ways) ts =
        some ⟨ts.dedup.reverse ++
            (List.range ways).reverse.filter (fun w => decide (w ∉ ts)),
          ways, List.range ways⟩ := by
  intro ts
  induction ts using List.reverseRecOn with
  | nil =>
      intro _
      simp [LRU.touchAll, LRU.new]
  | append_singleton ts t ih =>
      intro hts
      have ht : t < ways := hts t (by simp)
      have hts' : ∀ x ∈ ts, x < ways := fun x hx => hts x (by simp [hx])
      rw [LRU.touchAll_append, ih hts', Option.some_bind]
      unfold LRU.touch
      rw [if_pos (by simpa using ht)]
      simp only [Option.some.injEq, LRU.mk.injEq, and_true]
      by_cases hmem : t ∈ ts
      · have htd : t ∈ ts.dedup.reverse := by simp [List.mem_dedup, hmem]
        have hfilt : List.filter (fun w => decide (w ∉ ts ++ [t]))
            (List.range ways).reverse
            = List.filter (fun w => decide (w ∉ ts))
                (List.range ways).reverse := by
          refine List.filter_congr ?_
          intro w hw
          rw [decide_eq_decide]
          by_cases hwt : w = t
          · subst hwt; simp [hmem]
          · simp [List.mem_append, hwt]
        rw [List.erase_append_left _ htd, dedup_append_singleton,
          List.reverse_concat,
          reverse_erase_of_nodup (List.nodup_dedup ts) t, hfilt,
          List.cons_append]
      · have htd : t ∉ ts.dedup.reverse := by simp [List.mem_dedup, hmem]
        have hRnodup : ((List.range ways).reverse.filter
            (fun w => decide (w ∉ ts))).Nodup :=
          List.Nodup.filter _ (List.nodup_reverse.mpr (List.nodup_range ways))
        have h1 : (ts.dedup.reverse ++ (List.range ways).reverse.filter
              (fun w => decide (w ∉ ts))).erase t
            = ts.dedup.reverse ++ ((List.range ways).reverse.filter
              (fun w => decide (w ∉ ts))).erase t :=
          List.erase_append_right _ htd
        have h2 : (ts ++ [t]).dedup = ts.dedup ++ [t] := by
          rw [dedup_append_singleton,
            List.erase_of_not_mem (by simp [List.mem_dedup, hmem] : t ∉ ts.dedup)]
        have h3 : ((List.range ways).reverse.filter
              (fun w => decide (w ∉ ts))).erase t
            = List.filter (fun w => decide (w ∉ ts ++ [t]))
                (List.range ways).reverse := by
          rw [List.Nodup.erase_eq_filter hRnodup, List.filter_filter]
          refine List.filter_congr ?_
          intro w hw
          by_cases hwt : w = t
          · subst hwt; simp
          · simp [List.mem_append, hwt]
        rw [h1, h3, h2, List.reverse_concat, List.cons_append]

/-- C1: on a fresh `ways`-way LRU engine (`ways > 0`), after any finite
sequence of in-range `touch` calls, the next `update()` succeeds and returns
the least recently touched way: when every way has been touched, the returned
way `v` splits the touch sequence as `as ++ v :: bs` with `v` never touched
again in `bs` while every other way is (its most recent touch is earliest);
when some way was never touched, `v` is the never-touched way with the
smallest index, which is the stalest in construction order (ways are pushed
front in order `0, …, ways-1`, so lower indices are staler). -/
theorem C1_lru_update_selects_least_recently_touched (ways : Nat) (hw : 0 < ways)
    (ts : List Nat) (hts : ∀ t ∈ ts, t < ways) :
    ∃ s v s', LRU.touchAll (LRU.new ways) ts = some s ∧
      s.update = some (v, s') ∧ v < ways ∧
      ((∀ w, w < ways → w ∈ ts) →
        ∃ as bs, ts = as ++ v :: bs ∧ v ∉ bs ∧
          ∀ w, w < ways → w ≠ v → w ∈ bs) ∧
      ((∃ w, w < ways ∧ w ∉ ts) →
        v ∉ ts ∧ ∀ w, w < ways → w ∉ ts → v ≤ w) := by
  have hta := LRU.touchAll_new ways ts hts
  by_cases hall : ∀ w, w < ways → w ∈ ts
  · have hRnil : (List.range ways).reverse.filter
        (fun w => decide (w ∉ ts)) = [] := by
      rw [List.filter_eq_nil_iff]
      intro a ha
      simp only [List.mem_reverse, List.mem_range] at ha
      simp [hall a ha]
    have htsne : ts ≠ [] := List.ne_nil_of_mem (hall 0 hw)
    have hdne : ts.dedup ≠ [] := fun h => htsne ((List.dedup_eq_nil ts).mp h)
    have hhead : ts.dedup.head? = some (ts.dedup.head hdne) :=
      List.head?_eq_head hdne
    have hlast : (ts.dedup.reverse ++ (List.range ways).reverse.filter
        (fun w => decide (w ∉ ts))).getLast? = some (ts.dedup.head hdne) := by
      rw [hRnil, List.append_nil, List.getLast?_reverse, hhead]
    have hvts : ts.dedup.head hdne ∈ ts :=
      List.mem_dedup.mp (List.head_mem hdne)
    obtain ⟨as, bs, hsplit, hnb, hball⟩ := dedup_head_split ts _ hhead
    refine ⟨_, ts.dedup.head hdne, _, hta, LRU.update_eq_some hlast,
      hts _ hvts, fun _ => ⟨as, bs, hsplit, hnb, ?_⟩, fun hex => ?_⟩
    · intro w hwlt hwv
      exact hball w (hall w hwlt) hwv
    · obtain ⟨w, hw1, hw2⟩ := hex
      exact absurd (hall w hw1) hw2
  · push_neg at hall
    obtain ⟨w0, hw0, hw0n⟩ := hall
    have hw0F : w0 ∈ (List.range ways).filter (fun w => decide (w ∉ ts)) := by
      rw [List.mem_filter]
      exact ⟨List.mem_range.mpr hw0, by simp [hw0n]⟩
    have hFne : (List.range ways).filter (fun w => decide (w ∉ ts)) ≠ [] :=
      List.ne_nil_of_mem hw0F
    have hRF : (List.range ways).reverse.filter (fun w => decide (w ∉ ts))
        = ((List.range ways).filter (fun w => decide (w ∉ ts))).reverse :=
      List.filter_reverse _ _
    have hhead : ((List.range ways).filter
        (fun w => decide (w ∉ ts))).head? = some (((List.range ways).filter
          (fun w => decide (w ∉ ts))).head hFne) := List.head?_eq_head hFne
    have hlast : (ts.dedup.reverse ++ (List.range ways).reverse.filter
        (fun w => decide (w ∉ ts))).getLast? = some (((List.range ways).filter
          (fun w => decide (w ∉ ts))).head hFne) := by
      rw [List.getLast?_append, hRF, List.getLast?_reverse, hhead]
      rfl
    have hvF : ((List.range ways).filter (fun w => decide (w ∉ ts))).head hFne
        ∈ (List.range ways).filter (fun w => decide (w ∉ ts)) :=
      List.head_mem hFne
    have hvlt : ((List.range ways).filter
        (fun w => decide (w ∉ ts))).head hFne < ways :=
      List.mem_range.mp (List.mem_filter.mp hvF).1
    have hvnts : ((List.range ways).filter
        (fun w => decide (w ∉ ts))).head hFne ∉ ts := by
      have := (List.mem_filter.mp hvF).2
      simpa using this
    have hFpair : ((List.range ways).filter
        (fun w => decide (w ∉ ts))).Pairwise (· < ·) :=
      List.Pairwise.sublist (List.filter_sublist _) (List.pairwise_lt_range ways)
    refine ⟨_, _, _, hta, LRU.update_eq_some hlast, hvlt,
      fun hallw => absurd (hallw w0 hw0) hw0n, fun _ => ⟨hvnts, ?_⟩⟩
    intro w hwlt hwnts
    have hwF : w ∈ (List.range ways).filter (fun w => decide (w ∉ ts)) := by
      rw [List.mem_filter]
      exact ⟨List.mem_range.mpr hwlt, by simp [hwnts]⟩
    have hcons := List.head_cons_tail _ hFne
    rw [← hcons] at hwF hFpair
    rcases List.mem_cons.mp hwF with heq | htail
    · omega
    · exact Nat.le_of_lt ((List.pairwise_cons.mp hFpair).1 w htail)

/-- Witness for C1 with three ways and the touch sequence `[2, 0]` (way `1`
never touched). -/
theorem C1_lru_update_selects_least_recently_touched_witness :
    ∃ s v s', LRU.touchAll (LRU.new 3) [2, 0] = some s ∧
      s.update = some (v, s') ∧ v < 3 ∧
      ((∀ w, w < 3 → w ∈ [2, 0]) →
        ∃ as bs, [2, 0] = as ++ v :: bs ∧ v ∉ bs ∧
          ∀ w, w < 3 → w ≠ v → w ∈ bs) ∧
      ((∃ w, w < 3 ∧ w ∉ [2, 0]) →
        v ∉ [2, 0] ∧ ∀ w, w < 3 → w ∉ [2, 0] → v ≤ w) :=
  C1_lru_update_selects_least_recently_touched 3 (by decide) [2, 0] (by decide)

/-! ## Safety of the PseudoLRU walks -/

/-- Flipping a bit never changes the size of the node array. -/
theorem PseudoLRU.reverse_node_length (nodes : List Flags) (node : Nat) :
    (PseudoLRU.reverse_node nodes node).length = nodes.length := by
  unfold PseudoLRU.reverse_node
  split
  · rfl
  · exact List.length_set ..

/-- A successful upward walk preserves the size of the node array. -/
theorem PseudoLRU.touchLoopF_length :
    ∀ (fuel : Nat) (nodes : List Flags) (node : Nat) (nodes' : List Flags),
      PseudoLRU.touchLoopF fuel nodes node = some nodes' →
        nodes'.length = nodes.length := by
  intro fuel
  induction fuel with
  | zero =>
      intro nodes node nodes' h
      simp only [PseudoLRU.touchLoopF] at h
      split at h
      · injection h with h; subst h; rfl
      · exact absurd h (by simp)
  | succ fuel ih =>
      intro nodes node nodes' h
      simp only [PseudoLRU.touchLoopF] at h
      split at h
      · injection h with h; subst h; rfl
      · split at h
        · exact absurd h (by simp)
        · have hrec := ih _ _ _ h
          rw [hrec]
          split
          · exact PseudoLRU.reverse_node_length ..
          · rfl

/-- The upward walk succeeds (every parent read in bounds) whenever the start
node is at most `2 * nodes.length` — which holds for every leaf of a valid
tree. -/
theorem PseudoLRU.touchLoopF_isSome :
    ∀ (fuel : Nat) (nodes : List Flags) (node : Nat), node ≤ fuel →
      node ≤ 2 * nodes.length →
        ∃ nodes', PseudoLRU.touchLoopF fuel nodes node = some nodes' := by
  intro fuel
  induction fuel with
  | zero =>
      intro nodes node h1 h2
      have h0 : node = 0 := by omega
      subst h0
      exact ⟨nodes, by simp [PseudoLRU.touchLoopF]⟩
  | succ fuel ih =>
      intro nodes node h1 h2
      by_cases h0 : node = 0
      · subst h0
        exact ⟨nodes, by simp [PseudoLRU.touchLoopF]⟩
      · have hplt : (node - 1) / 2 < nodes.length := by omega
        have hp : nodes[(node - 1) / 2]? =
            some (nodes.get ⟨(node - 1) / 2, hplt⟩) := by
          rw [List.getElem?_eq_getElem hplt]
          rfl
        simp only [PseudoLRU.touchLoopF, h0, if_false, hp]
        refine ih _ _ (by omega) ?_
        split
        · rw [PseudoLRU.reverse_node_length]
          omega
        · omega

/-- The downward walk of `update` terminates with every read in bounds, at a
node in `[nodes.length, 2 * nodes.length]` (a leaf). -/
theorem PseudoLRU.updateLoopF_bounds (nodes : List Flags) :
    ∀ (fuel node : Nat), nodes.length ≤ node + fuel → node ≤ 2 * nodes.length →
      ∃ r, PseudoLRU.updateLoopF nodes fuel node = some r ∧
        nodes.length ≤ r ∧ r ≤ 2 * nodes.length := by
  intro fuel
  induction fuel with
  | zero =>
      intro node h1 h2
      refine ⟨node, ?_, by omega, h2⟩
      simp only [PseudoLRU.updateLoopF]
      rw [if_neg (by omega)]
  | succ fuel ih =>
      intro node h1 h2
      by_cases hlt : node < nodes.length
      · have hf : nodes[node]? = some (nodes.get ⟨node, hlt⟩) := by
          rw [List.getElem?_eq_getElem hlt]
          rfl
        simp only [PseudoLRU.updateLoopF, hlt, if_true, PseudoLRU.get_next_node,
          hf, Option.map_some']
        refine ih _ ?_ ?_
        · split <;> omega
        · split <;> omega
      · refine ⟨node, ?_, by omega, h2⟩
        simp only [PseudoLRU.updateLoopF]
        rw [if_neg hlt]

/-- `touch` succeeds for every way up to `nodes.length`, preserving the array
size and the way count. -/
theorem PseudoLRU.touch_isSome (s : PseudoLRU) (way : Nat)
    (h : way ≤ s.nodes.length) :
    ∃ s', s.touch way = some s' ∧ s'.nodes.length = s.nodes.length ∧
      s'.ways = s.ways := by
  unfold PseudoLRU.touch
  rw [PseudoLRU.touchLoop_eq_fuel (way + s.nodes.length) s.nodes _ le_rfl]
  obtain ⟨nodes', h1⟩ := PseudoLRU.touchLoopF_isSome (way + s.nodes.length)
    s.nodes (way + s.nodes.length) le_rfl (by omega)
  rw [h1]
  exact ⟨_, rfl, PseudoLRU.touchLoopF_length _ _ _ _ h1, rfl⟩

/-- Any successful `touch` preserves the array size and the way count. -/
theorem PseudoLRU.touch_length {s s' : PseudoLRU} {way : Nat}
    (h : s.touch way = some s') :
    s'.nodes.length = s.nodes.length ∧ s'.ways = s.ways := by
  unfold PseudoLRU.touch at h
  rw [PseudoLRU.touchLoop_eq_fuel (way + s.nodes.length) s.nodes _ le_rfl] at h
  obtain ⟨nodes', h1, h2⟩ := Option.map_eq_some'.mp h
  subst h2
  exact ⟨PseudoLRU.touchLoopF_length _ _ _ _ h1, rfl⟩

/-- Invariant of every reachable `PseudoLRU` state: the node array has
`ways - 1` entries and `ways ≥ 1`. -/
theorem PseudoLRU.reachable_shape {s : PseudoLRU}
    (hs : PseudoLRU.Reachable s) :
    s.nodes.length = s.ways - 1 ∧ 1 ≤ s.ways := by
  induction hs with
  | @new ways s h =>
      unfold PseudoLRU.new at h
      split at h
      case isTrue hpow =>
        injection h with h
        subst h
        obtain ⟨k, hk⟩ := (is_power_of_two_iff ways).mp hpow
        refine ⟨List.length_replicate .., ?_⟩
        rw [hk]
        exact Nat.one_le_two_pow
      case isFalse => exact absurd h (by simp)
  | @touch s s' way hs h ih =>
      obtain ⟨h1, h2⟩ := PseudoLRU.touch_length h
      rw [h1, h2]
      exact ih
  | @update s s' way hs h ih =>
      unfold PseudoLRU.update at h
      obtain ⟨node, hnode, h⟩ := Option.bind_eq_some.mp h
      obtain ⟨u, hu, h⟩ := Option.bind_eq_some.mp h
      injection h with h
      injection h with hw hs'
      subst hs'
      obtain ⟨h1, h2⟩ := PseudoLRU.touch_length hu
      rw [h1, h2]
      exact ih

/-- C10: on every reachable state of a successfully constructed `PseudoLRU`
engine, every step of `update`'s root-to-leaf walk strictly increases the node
index with the array read in bounds, and `update()` itself succeeds (all
reads in bounds, the walk terminates) returning a way below `ways`. -/
theorem C10_plru_update_terminates_in_bounds (s : PseudoLRU)
    (hs : PseudoLRU.Reachable s) :
    (∀ node, node < s.nodes.length →
      ∃ n', PseudoLRU.get_next_node s.nodes node = some n' ∧ node < n') ∧
    (∃ way s', s.update = some (way, s') ∧ way < s.ways) := by
  obtain ⟨hlen, hw1⟩ := PseudoLRU.reachable_shape hs
  constructor
  · intro node hnode
    have hf : s.nodes[node]? = some (s.nodes.get ⟨node, hnode⟩) := by
      rw [List.getElem?_eq_getElem hnode]
      rfl
    refine ⟨node * 2 + (if s.nodes.get ⟨node, hnode⟩ = Flags.Left then 1 else 2),
      by simp [PseudoLRU.get_next_node, hf], ?_⟩
    split <;> omega
  · obtain ⟨r, hr, hr1, hr2⟩ := PseudoLRU.updateLoopF_bounds s.nodes
      s.nodes.length 0 (by omega) (by omega)
    have hway : r - s.nodes.length ≤ s.nodes.length := by omega
    obtain ⟨s', hs', hlen', hways'⟩ := PseudoLRU.touch_isSome s
      (r - s.nodes.length) hway
    refine ⟨r - s.nodes.length, s', ?_, by omega⟩
    unfold PseudoLRU.update
    rw [PseudoLRU.updateLoop_eq_fuel s.nodes.length s.nodes 0 (by omega), hr]
    simp [hs']

/-- Witness for C10 at the freshly constructed four-way engine. -/
theorem C10_plru_update_terminates_in_bounds_witness :
    (∀ node, node < (⟨List.replicate 3 Flags.Left, 4⟩ : PseudoLRU).nodes.length →
      ∃ n', PseudoLRU.get_next_node
          (⟨List.replicate 3 Flags.Left, 4⟩ : PseudoLRU).nodes node = some n' ∧
        node < n') ∧
    (∃ way s', (⟨List.replicate 3 Flags.Left, 4⟩ : PseudoLRU).update =
        some (way, s') ∧
      way < (⟨List.replicate 3 Flags.Left, 4⟩ : PseudoLRU).ways) :=
  C10_plru_update_terminates_in_bounds ⟨List.replicate 3 Flags.Left, 4⟩
    (@PseudoLRU.Reachable.new 4 ⟨List.replicate 3 Flags.Left, 4⟩ rfl)
